import Mathlib

/-!
Verification of the news-alpha backtest and significance-testing engines.

The definitions below are a shallow embedding of the two core Python modules:

* `src/65_stats_tests.py` — Benjamini-Hochberg FDR correction (`bh_fdr`) and
  the one-sample t-statistics (`one_sample_tstats`);
* `src/50_train_backtest.py` — `compute_daily_metrics`, the per-day top-1-per-
  sector selection loop, the dense (date × sector) return grid, and the
  Sharpe ranking of the sector statistics table.

Returns and p-values are modelled as exact rationals (`ℚ`); quantities that
the code produces through `sqrt`/`**` live in `ℝ`.  A float `NaN` produced by
the code (empty input, `ddof=1` standard deviation of a single observation,
`0.0/0.0` in the drawdown ratio, fractional power of a negative base) is
modelled as `none` of an `Option` type.
-/

namespace NewsAlpha

/-! ### List primitives mirroring the numpy/pandas operations used by the code -/

/-- Running minimum continuation: `cumMinAux m l` is the tail of
`np.minimum.accumulate` once the accumulator holds `m`. -/
def cumMinAux (m : ℚ) : List ℚ → List ℚ
  | [] => []
  | x :: xs => min m x :: cumMinAux (min m x) xs

/-- Mirrors `np.minimum.accumulate`. -/
def cumMin : List ℚ → List ℚ
  | [] => []
  | x :: xs => x :: cumMinAux x xs

/-- Running maximum continuation, see `cumMinAux`. -/
def cumMaxAux (m : ℚ) : List ℚ → List ℚ
  | [] => []
  | x :: xs => max m x :: cumMaxAux (max m x) xs

/-- Mirrors `pandas.Series.cummax`. -/
def cumMax : List ℚ → List ℚ
  | [] => []
  | x :: xs => x :: cumMaxAux x xs

/-- Running product continuation, see `cumMinAux`. -/
def cumProdAux (m : ℚ) : List ℚ → List ℚ
  | [] => []
  | x :: xs => m * x :: cumProdAux (m * x) xs

/-- Mirrors `pandas.Series.cumprod`. -/
def cumProd : List ℚ → List ℚ
  | [] => []
  | x :: xs => x :: cumProdAux x xs

/-- Minimum of a list of optional values, skipping the absent ones; `none` if
nothing is present.  Mirrors `pandas.Series.min` (`skipna=True`, NaN as
`none`). -/
def minSkip : List (Option ℚ) → Option ℚ
  | [] => none
  | none :: xs => minSkip xs
  | some x :: xs =>
    match minSkip xs with
    | none => some x
    | some y => some (min x y)

/-- Position of the first occurrence of `i` in a list of indices (the length
of the list when absent).  Mirrors looking up where `np.argsort` placed an
index. -/
def findPos (i : ℕ) : List ℕ → ℕ
  | [] => 0
  | j :: js => if i = j then 0 else findPos i js + 1

/-- Mean of a list of rationals: `pandas.Series.mean`.  Only used on nonempty
input (pandas returns NaN on an empty series; every call site below guards
on the length first). -/
def meanQ (l : List ℚ) : ℚ := l.sum / l.length

/-! ### `bh_fdr` from `src/65_stats_tests.py` -/

/-- Order in which `np.argsort` lists the indices of `p`: ascending by value,
ties broken by original position. -/
def argsortRel (p : List ℚ) (i j : ℕ) : Prop :=
  p.getD i 0 < p.getD j 0 ∨ (p.getD i 0 = p.getD j 0 ∧ i ≤ j)

instance argsortRelDec (p : List ℚ) (i j : ℕ) : Decidable (argsortRel p i j) := by
  unfold argsortRel; infer_instance

/-- Mirrors `order = np.argsort(p)`. -/
def argsort (p : List ℚ) : List ℕ :=
  List.insertionSort (argsortRel p) (List.range p.length)

/-- Mirrors `ranked` with `ranked[order] = np.arange(1, n + 1)`: the 1-based
rank of the entry at original index `i`. -/
def bhRank (p : List ℚ) (i : ℕ) : ℕ := findPos i (argsort p) + 1

/-- Mirrors `q = p * n / ranked` (raw BH q-values, in original entry order). -/
def bhQ (p : List ℚ) : List ℚ :=
  (List.range p.length).map (fun i => p.getD i 0 * p.length / (bhRank p i : ℚ))

/-- Mirrors `q_sorted = np.minimum.accumulate(np.sort(q)[::-1])[::-1]`: the
raw q-values are sorted by value (not by p-rank), reversed, swept with a
running minimum and reversed back. -/
def bhQSorted (p : List ℚ) : List ℚ :=
  (cumMin (List.insertionSort (· ≤ ·) (bhQ p)).reverse).reverse

/-- Mirrors `np.clip(x, 0, 1)`. -/
def clip01 (x : ℚ) : ℚ := min (max x 0) 1

/-- The code's `bh_fdr` (`src/65_stats_tests.py`): empty input yields the
empty series; otherwise `q_adj[order] = q_sorted` scatters `q_sorted` back,
so the entry at original index `i` receives `q_sorted[position of i in
order]`, and the result is clipped to `[0, 1]`. -/
def bh_fdr (p : List ℚ) : List ℚ :=
  if p = [] then []
  else
    ((List.range p.length).map
      (fun i => (bhQSorted p).getD (findPos i (argsort p)) 0)).map clip01

/-- Modelled from the spec's statement of exact Benjamini-Hochberg semantics:
sort the p-values ascending with ranks `1..n`, set the raw value at rank `i`
to `p_(i) * n / i`, sweep a running minimum from rank `n` down to rank `1`
(`q_(i) = min (q_(i+1), p_(i) * n / i)`), and give each input entry the
adjusted value of its own rank. -/
def bhFdrSpec (p : List ℚ) : List ℚ :=
  let n := p.length
  let ps := List.insertionSort (· ≤ ·) p
  let qraw := (List.range n).map (fun k => ps.getD k 0 * n / ((k + 1 : ℕ) : ℚ))
  let adj := (cumMin qraw.reverse).reverse
  (List.range n).map (fun i => adj.getD (findPos i (argsort p)) 0)

/-! ### `one_sample_tstats` from `src/65_stats_tests.py` -/

/-- Unbiased sample variance (`ddof = 1`).  `pandas.Series.std(ddof=1)` is NaN
for fewer than two observations, hence the `Option`. -/
def sampleVar (l : List ℚ) : Option ℚ :=
  if l.length ≤ 1 then none
  else some ((l.map (fun x => (x - meanQ l) ^ 2)).sum / ((l.length : ℚ) - 1))

/-- Mirrors `r.std(ddof=1)`: the square root of the sample variance. -/
noncomputable def sampleStd (l : List ℚ) : Option ℝ :=
  (sampleVar l).map (fun v : ℚ => Real.sqrt ((v : ℚ) : ℝ))

/-- Result record of `one_sample_tstats`; `none` models an `np.nan` field.
The `mean` field is only meaningful for nonempty input (pandas reports NaN on
an empty series; `meanQ` returns `0` there, and no call site reads it). -/
structure TStats where
  n : ℕ
  mean : ℚ
  std : Option ℝ
  t : Option ℝ
  p : Option ℝ
  ci_lo : Option ℝ
  ci_hi : Option ℝ

/-- The code's `one_sample_tstats`, parametrised by the scipy collaborators
`sf t df = stats.t.sf(t, df)` and `ppf q df = stats.t.ppf(q, df)`.  The
code's degenerate-case guard is `n < 2 or sd == 0`; since `sd = √var` with
`var ≥ 0`, the second disjunct is expressed on the variance
(`sampleStd_eq_zero_iff` below proves the equivalence).  In the defined
branch `n ≥ 2`, so the standard deviation is present and the `Option.map`
chains mirror the code's scalar arithmetic `se = sd/√n`, `t = mu/se`,
`p = 2·sf(|t|, n−1)`, `ci = mu ∓ ppf(0.975, n−1)·se`. -/
noncomputable def oneSampleTstats (sf ppf : ℝ → ℕ → ℝ) (x : List ℚ) : TStats :=
  let n := x.length
  let mu := meanQ x
  let sd := sampleStd x
  if n < 2 ∨ sampleVar x = some 0 then
    { n := n, mean := mu, std := sd, t := none, p := none, ci_lo := none, ci_hi := none }
  else
    let se := sd.map (fun s => s / Real.sqrt n)
    let t := se.map (fun s => (mu : ℝ) / s)
    { n := n, mean := mu, std := sd,
      t := t,
      p := t.map (fun tv => 2 * sf |tv| (n - 1)),
      ci_lo := se.map (fun s => (mu : ℝ) - ppf (975 / 1000) (n - 1) * s),
      ci_hi := se.map (fun s => (mu : ℝ) + ppf (975 / 1000) (n - 1) * s) }

/-! ### `compute_daily_metrics` from `src/50_train_backtest.py` -/

/-- Mirrors `equity = (1.0 + r).cumprod()`. -/
def equityCurve (r : List ℚ) : List ℚ := cumProd (r.map (fun x => 1 + x))

/-- Mirrors `(equity / peak - 1.0)` with `peak = equity.cummax()`.  A `0/0`
float division yields NaN, modelled as `none`; a zero peak forces a zero
equity value (the cumulative product stays at `0` once it hits `0`, and the
cumulative maximum can only be `0` if some equity value is `0`), so the
peak-is-zero test captures exactly the NaN entries. -/
def drawdowns (r : List ℚ) : List (Option ℚ) :=
  ((equityCurve r).zip (cumMax (equityCurve r))).map
    (fun ep => if ep.2 = 0 then none else some (ep.1 / ep.2 - 1))

/-- Mirrors `max_dd = (equity / peak - 1.0).min()` (pandas `min` skips NaN). -/
def maxDrawdown (r : List ℚ) : Option ℚ := minSkip (drawdowns r)

/-- Mirrors `ann_return_arith = mu_d * 252.0`. -/
def annArith (r : List ℚ) : ℚ := meanQ r * 252

/-- Mirrors `ann_vol = sd_d * np.sqrt(252.0)` (NaN when `n < 2`). -/
noncomputable def annVol (r : List ℚ) : Option ℝ :=
  (sampleStd r).map (fun s => s * Real.sqrt 252)

/-- Mirrors `sharpe = (ann_return_arith / ann_vol) if ann_vol > 0 else np.nan`;
the comparison `NaN > 0` is false, so a missing volatility also yields NaN. -/
noncomputable def sharpeOf (r : List ℚ) : Option ℝ :=
  match annVol r with
  | none => none
  | some v => if 0 < v then some ((annArith r : ℝ) / v) else none

/-- Mirrors `total = equity.iloc[-1] - 1.0` (used only for nonempty input). -/
def totalRet (r : List ℚ) : ℚ := (equityCurve r).getLastD 1 - 1

/-- Mirrors `ann_return_geom = (1.0 + total) ** (252.0 / n) - 1.0`.  Numpy's
float power of a negative base with a non-integral exponent is NaN, modelled
as `none`; `252.0 / n` is integral exactly when `n ∣ 252`. -/
noncomputable def annGeom (r : List ℚ) : Option ℝ :=
  if r.length = 0 then none
  else if 1 + totalRet r < 0 ∧ ¬(r.length ∣ 252) then none
  else some ((1 + (totalRet r : ℝ)) ^ ((252 : ℝ) / r.length) - 1)

/-- Result record of `compute_daily_metrics`; `none` models an `np.nan`
field. -/
structure DailyMetrics where
  ann_return_arith : Option ℚ
  ann_return_geom : Option ℝ
  ann_vol : Option ℝ
  sharpe : Option ℝ
  max_drawdown : Option ℚ
  days : ℕ
  non_zero_days : ℕ

/-- The code's `compute_daily_metrics`: every rate field of an empty series is
NaN; otherwise the fields defined above. -/
noncomputable def computeDailyMetrics (r : List ℚ) : DailyMetrics :=
  if r.length = 0 then
    { ann_return_arith := none, ann_return_geom := none, ann_vol := none,
      sharpe := none, max_drawdown := none, days := 0, non_zero_days := 0 }
  else
    { ann_return_arith := some (annArith r),
      ann_return_geom := annGeom r,
      ann_vol := annVol r,
      sharpe := sharpeOf r,
      max_drawdown := maxDrawdown r,
      days := r.length,
      non_zero_days := (r.filter (fun x => x ≠ 0)).length }

/-! ### The per-day selection loop of `src/50_train_backtest.py` -/

/-- One candidate row of the test-set prediction table for a given day. -/
structure Candidate where
  ticker : String
  sector : String
  p_up : ℚ
  fwd_ret : ℚ
deriving DecidableEq

/-- One emitted pick record (`picks_rows` entry, date column omitted: the
loop body below treats a single day). -/
structure Pick where
  ticker : String
  sector : String
  ret : ℚ
deriving DecidableEq

/-- The fixed sector enumeration `ALL_SECTORS` (already in Python's sorted
order). -/
def ALL_SECTORS : List String :=
  ["Communication Services", "Consumer Discretionary", "Consumer Staples",
   "Energy", "Financials", "Healthcare", "Industrials", "Materials",
   "Real Estate", "Technology", "Utilities"]

/-- Mirrors `cost = COST_BPS_RT / 10000.0` with `COST_BPS_RT = 10`. -/
def COST : ℚ := 10 / 10000

/-- Mirrors `sector_data.nlargest(TOP_N_PER_SECTOR, "p_up")` with
`TOP_N_PER_SECTOR = 1` (`keep='first'`: the first row attaining the maximal
probability), returning `[]` on an empty frame. -/
def nlargestPUp : List Candidate → List Candidate
  | [] => []
  | c :: cs => [cs.foldl (fun best x => if best.p_up < x.p_up then x else best) c]

/-- Mirrors the `for sector in ALL_SECTORS` loop collecting `sector_picks`
followed by `pd.concat`: one top candidate per sector that has any. -/
def sectorPicks (g : List Candidate) : List Candidate :=
  (ALL_SECTORS.map (fun s => nlargestPUp (g.filter (fun c => c.sector = s)))).flatten

/-- The body of the per-day backtest loop: yields the day's net portfolio
return and its pick records.  When no sector yields a pick, the code's
`g.empty` branch and its final `else` branch both emit a `0.0` return and one
zero pick per sector, which is the `picks = []` case here.  Otherwise
`net = mean(fwd_ret) − cost` with the cost charged once, each real pick is
recorded with `fwd_ret − cost`, and every sector whose candidate frame was
empty gets a zero pick appended. -/
def processDay (g : List Candidate) : ℚ × List Pick :=
  let picks := sectorPicks g
  if picks = [] then
    (0, ALL_SECTORS.map (fun s => ⟨"", s, 0⟩))
  else
    (meanQ (picks.map Candidate.fwd_ret) - COST,
     picks.map (fun c => (⟨c.ticker, c.sector, c.fwd_ret - COST⟩ : Pick)) ++
       (ALL_SECTORS.filter (fun s => g.filter (fun c => c.sector = s) = [])).map
         (fun s => (⟨"", s, 0⟩ : Pick)))

/-! ### The dense (date × sector) grid of `src/50_train_backtest.py` -/

/-- One row of `picks_rows` accumulated across days (ticker column omitted:
the grid only reads date, sector and return). -/
structure PickRow where
  date : ℕ
  sector : String
  ret : ℚ
deriving DecidableEq

/-- Keys of `picked_df.groupby(["date", "sector"])`: the distinct (date,
sector) pairs.  Pandas lists group keys sorted; the key order is irrelevant
to the grid (the merge is a lookup), so first-occurrence order is used. -/
def groupKeys (rows : List PickRow) : List (ℕ × String) :=
  (rows.map (fun r => (r.date, r.sector))).dedup

/-- Mean return of the rows with the given (date, sector) key. -/
def groupMean (rows : List PickRow) (k : ℕ × String) : ℚ :=
  meanQ ((rows.filter (fun r => (r.date, r.sector) = k)).map PickRow.ret)

/-- Mirrors `sec_daily = picked_df.groupby(["date","sector"])["ret"].mean()`. -/
def secDaily (rows : List PickRow) : List ((ℕ × String) × ℚ) :=
  (groupKeys rows).map (fun k => (k, groupMean rows k))

/-- Mirrors `grid = pd.MultiIndex.from_product([all_days, ALL_SECTORS])`
(date-major order). -/
def gridKeys (cal : List ℕ) : List (ℕ × String) := cal ×ˢ ALL_SECTORS

/-- The rows a left join emits for one key of the left table: one row per
matching `right` row, or — after `.fillna({"sec_ret": 0.0})` — a single `0.0`
row when nothing matches. -/
def joinRow (right : List ((ℕ × String) × ℚ)) (k : ℕ × String) :
    List ((ℕ × String) × ℚ) :=
  if right.filter (fun kv => kv.1 = k) = [] then [(k, 0)]
  else (right.filter (fun kv => kv.1 = k)).map (fun kv => (k, kv.2))

/-- Left join of the grid skeleton with an aggregate table followed by
`.fillna({"sec_ret": 0.0})`. -/
def leftJoinFill (left : List (ℕ × String)) (right : List ((ℕ × String) × ℚ)) :
    List ((ℕ × String) × ℚ) :=
  left.flatMap (joinRow right)

/-- Mirrors `sec_df`: the dense (date × sector) return grid. -/
def sectorGrid (cal : List ℕ) (rows : List PickRow) : List ((ℕ × String) × ℚ) :=
  leftJoinFill (gridKeys cal) (secDaily rows)

/-! ### Sharpe ranking of the sector statistics table -/

/-- Row order of `sort_values("sharpe", ascending=False)`: defined values
descending, NaN (`none`) last (`na_position='last'`, the pandas default). -/
def sharpeDescLe (a b : Option ℚ) : Prop :=
  match a, b with
  | some x, some y => y ≤ x
  | some _, none => True
  | none, some _ => False
  | none, none => True

instance sharpeDescLeDec (a b : Option ℚ) : Decidable (sharpeDescLe a b) := by
  unfold sharpeDescLe
  match a, b with
  | some _, some _ => exact inferInstance
  | some _, none => exact inferInstance
  | none, some _ => exact inferInstance
  | none, none => exact inferInstance

/-- Mirrors `sector_stats.sort_values("sharpe", ascending=False)` on (sector,
sharpe) rows. -/
def sortRowsBySharpe (rows : List (String × Option ℚ)) : List (String × Option ℚ) :=
  List.insertionSort (fun a b => sharpeDescLe a.2 b.2) rows

/-- The code's ranking pipeline: sort by Sharpe descending first, then
`fillna(0.0)` on the sharpe column. -/
def rankSectors (rows : List (String × Option ℚ)) : List (String × ℚ) :=
  (sortRowsBySharpe rows).map (fun r => (r.1, r.2.getD 0))

/-- Modelled from the spec's claim for comparison: replace NaN Sharpe values
by `0.0` first, then rank by Sharpe descending. -/
def rankSectorsSpec (rows : List (String × Option ℚ)) : List (String × ℚ) :=
  List.insertionSort (fun a b => b.2 ≤ a.2) (rows.map (fun r => (r.1, r.2.getD 0)))

/-! ### Helper lemmas -/

lemma cumMinAux_length (m : ℚ) (l : List ℚ) : (cumMinAux m l).length = l.length := by
  induction l generalizing m with
  | nil => simp [cumMinAux]
  | cons x xs ih => simp [cumMinAux, ih]

lemma cumMin_length (l : List ℚ) : (cumMin l).length = l.length := by
  cases l with
  | nil => simp [cumMin]
  | cons x xs => simp [cumMin, cumMinAux_length]

lemma cumMinAux_chain (m : ℚ) (l : List ℚ) :
    List.Chain' (fun a b => b ≤ a) (m :: cumMinAux m l) := by
  induction l generalizing m with
  | nil => simp [cumMinAux]
  | cons x xs ih =>
    rw [cumMinAux]
    exact List.Chain'.cons (min_le_left m x) (ih (min m x))

lemma cumMin_chain (l : List ℚ) : List.Chain' (fun a b => b ≤ a) (cumMin l) := by
  cases l with
  | nil => simp [cumMin]
  | cons x xs => rw [cumMin]; exact cumMinAux_chain x xs

lemma findPos_lt_of_mem {i : ℕ} {l : List ℕ} (h : i ∈ l) : findPos i l < l.length := by
  induction l with
  | nil => cases h
  | cons j js ih =>
    rw [findPos]
    by_cases hij : i = j
    · simp [hij]
    · have : i ∈ js := by
        rcases List.mem_cons.mp h with h' | h'
        · exact absurd h' hij
        · exact h'
      simp only [if_neg hij, List.length_cons]
      exact Nat.succ_lt_succ (ih this)

lemma findPos_getElem {l : List ℕ} (hnd : l.Nodup) :
    ∀ {k : ℕ} (h : k < l.length), findPos l[k] l = k := by
  induction l with
  | nil => intro k h; cases (Nat.not_lt_zero k) h
  | cons j js ih =>
    intro k h
    rcases List.nodup_cons.mp hnd with ⟨hj, hjs⟩
    match k with
    | 0 => simp [findPos]
    | Nat.succ k' =>
      have hk' : k' < js.length := Nat.lt_of_succ_lt_succ h
      have hmem : js[k'] ∈ js := List.getElem_mem hk'
      have hne : js[k'] ≠ j := fun he => hj (he ▸ hmem)
      have hstep : (j :: js)[k' + 1] = js[k'] := by simp
      rw [hstep, findPos, if_neg hne, ih hjs hk']

lemma clip01_mono {a b : ℚ} (h : a ≤ b) : clip01 a ≤ clip01 b :=
  min_le_min (max_le_max h le_rfl) le_rfl

lemma argsort_perm (p : List ℚ) : (argsort p).Perm (List.range p.length) :=
  List.perm_insertionSort _ _

lemma argsort_nodup (p : List ℚ) : (argsort p).Nodup :=
  (argsort_perm p).symm.nodup (List.nodup_range p.length)

lemma argsort_length (p : List ℚ) : (argsort p).length = p.length :=
  (argsort_perm p).length_eq.trans (List.length_range p.length)

lemma argsort_mem_lt (p : List ℚ) {i : ℕ} (h : i ∈ argsort p) : i < p.length :=
  List.mem_range.mp ((argsort_perm p).subset h)

lemma bhQSorted_length (p : List ℚ) : (bhQSorted p).length = p.length := by
  rw [bhQSorted, List.length_reverse, cumMin_length, List.length_reverse,
    (List.perm_insertionSort _ _).length_eq, bhQ, List.length_map, List.length_range]

lemma bhQSorted_chain (p : List ℚ) : List.Chain' (· ≤ ·) (bhQSorted p) := by
  rw [bhQSorted, List.chain'_reverse]
  exact cumMin_chain _

/-! ### C1 / C2 / C3: the Benjamini-Hochberg correction -/

/-- C1: the claim states that `bh_fdr` reproduces exact Benjamini-Hochberg
semantics (running minimum over the raw q-values taken in ascending-p rank
order).  It does not: on the p-values `[0.4, 0.3]` the code hands the entry
with p = 0.4 the adjusted value `0.6`, while exact BH (the code's own
docstring and the spec) gives `0.4`.  The code sorts the raw q-values by
value (`np.sort(q)`) instead of by p-rank before its running minimum, which
makes the running minimum a no-op. -/
theorem bh_fdr_not_exact_bh :
    bh_fdr [2/5, 3/10] = [3/5, 2/5] ∧ bhFdrSpec [2/5, 3/10] = [2/5, 2/5] ∧
      bh_fdr [2/5, 3/10] ≠ bhFdrSpec [2/5, 3/10] := by
  have h1 : bh_fdr [2/5, 3/10] = [3/5, 2/5] := by
    rw [bh_fdr, if_neg (List.cons_ne_nil _ _)]
    norm_num [bhQSorted, bhQ, bhRank, argsort, argsortRel, findPos, cumMin, cumMinAux,
      clip01, List.insertionSort, List.orderedInsert, List.range_succ]
  have h2 : bhFdrSpec [2/5, 3/10] = [2/5, 2/5] := by
    norm_num [bhFdrSpec, argsort, argsortRel, findPos, cumMin, cumMinAux,
      List.insertionSort, List.orderedInsert, List.range_succ]
  exact ⟨h1, h2, by rw [h1, h2]; norm_num⟩

/-- C2: the adjusted q-values produced by `bh_fdr`, read in the ascending-p
order that the code's own `argsort` establishes, form a non-decreasing
sequence (they are a clipped running-minimum sweep read backwards, hence
sorted). -/
theorem bh_fdr_monotone_in_p_order (p : List ℚ) :
    List.Chain' (· ≤ ·) ((argsort p).map (fun i => (bh_fdr p).getD i 0)) := by
  by_cases hp : p = []
  · subst hp
    simp [argsort, bh_fdr, List.insertionSort]
  · have hlenord := argsort_length p
    have hL := bhQSorted_length p
    have hEq : (argsort p).map (fun i => (bh_fdr p).getD i 0)
        = (bhQSorted p).map clip01 := by
      apply List.ext_getElem
      · simp [hlenord, hL]
      · intro k h1 h2
        have hk : k < (argsort p).length := by
          simpa [hlenord] using h1
        rw [List.getElem_map, List.getElem_map]
        have hi : (argsort p)[k] < p.length :=
          argsort_mem_lt p (List.getElem_mem hk)
        simp only [bh_fdr, if_neg hp]
        have hlen' : (((List.range p.length).map
            (fun i => (bhQSorted p).getD (findPos i (argsort p)) 0)).map clip01).length
            = p.length := by simp
        rw [List.getD_eq_getElem _ _ (by rw [hlen']; exact hi), List.getElem_map,
          List.getElem_map, List.getElem_range]
        have hfp : findPos ((argsort p)[k]) (argsort p) = k :=
          findPos_getElem (argsort_nodup p) hk
        rw [hfp, List.getD_eq_getElem _ _ (by rw [hL]; exact h1.trans_eq (by simp [hlenord]))]
    rw [hEq, List.chain'_map]
    exact (bhQSorted_chain p).imp (fun a b h => clip01_mono h)

/-- C3: on the p-values `[0.01, 0.04, 0.03, 0.20]` the claim predicts
adjusted q-values `[0.04, 0.04, 0.0533, 0.20]` in ascending-p order; the code
actually produces `[0.04, 0.0533…, 0.06, 0.20]` (second entry `4/75 ≠ 1/25`),
so the claimed list is wrong. -/
theorem bh_fdr_scenario3_not_claimed :
    (argsort [1/100, 1/25, 3/100, 1/5]).map
        (fun i => (bh_fdr [(1:ℚ)/100, 1/25, 3/100, 1/5]).getD i 0)
      ≠ [1/25, 1/25, 533/10000, 1/5] := by
  have e : (argsort [1/100, 1/25, 3/100, 1/5]).map
      (fun i => (bh_fdr [(1:ℚ)/100, 1/25, 3/100, 1/5]).getD i 0)
      = [1/25, 4/75, 3/50, 1/5] := by
    rw [bh_fdr, if_neg (List.cons_ne_nil _ _)]
    norm_num [bhQSorted, bhQ, bhRank, argsort, argsortRel, findPos, cumMin, cumMinAux,
      clip01, List.insertionSort, List.orderedInsert, List.range_succ]
  rw [e]; norm_num

/-- C3 (amended): on `[0.01, 0.04, 0.03, 0.20]` the raw q-values in
ascending-p rank order are `[0.04, 0.06, 0.0533…, 0.20]`, and the code's
adjusted q-values in ascending-p order are the raw q-values sorted by value,
`[0.04, 0.0533…, 0.06, 0.20]`. -/
theorem bh_fdr_scenario3_actual :
    (argsort [1/100, 1/25, 3/100, 1/5]).map
        (fun k => (bhQ [(1:ℚ)/100, 1/25, 3/100, 1/5]).getD k 0)
      = [1/25, 3/50, 4/75, 1/5] ∧
    (argsort [1/100, 1/25, 3/100, 1/5]).map
        (fun i => (bh_fdr [(1:ℚ)/100, 1/25, 3/100, 1/5]).getD i 0)
      = [1/25, 4/75, 3/50, 1/5] := by
  constructor
  · norm_num [bhQ, bhRank, argsort, argsortRel, findPos,
      List.insertionSort, List.orderedInsert, List.range_succ]
  · rw [bh_fdr, if_neg (List.cons_ne_nil _ _)]
    norm_num [bhQSorted, bhQ, bhRank, argsort, argsortRel, findPos, cumMin, cumMinAux,
      clip01, List.insertionSort, List.orderedInsert, List.range_succ]

/-! ### Variance and standard deviation lemmas -/

lemma sampleVar_nonneg {l : List ℚ} {v : ℚ} (h : sampleVar l = some v) : 0 ≤ v := by
  rw [sampleVar] at h
  by_cases hl : l.length ≤ 1
  · rw [if_pos hl] at h; cases h
  · rw [if_neg hl] at h
    have hv := Option.some.inj h
    subst hv
    have hnum : 0 ≤ (l.map (fun x => (x - meanQ l) ^ 2)).sum :=
      List.sum_nonneg (by
        intro y hy
        rcases List.mem_map.mp hy with ⟨x, _, hx⟩
        exact hx ▸ sq_nonneg _)
    have hden : (0 : ℚ) ≤ (l.length : ℚ) - 1 := by
      have : (2 : ℚ) ≤ (l.length : ℚ) := by
        exact_mod_cast Nat.succ_le_of_lt (Nat.lt_of_not_le hl)
      linarith
    exact div_nonneg hnum hden

lemma sampleStd_eq_zero_iff (l : List ℚ) : sampleStd l = some 0 ↔ sampleVar l = some 0 := by
  rw [sampleStd]
  cases hv : sampleVar l with
  | none => simp
  | some v =>
    have hv0 : (0 : ℝ) ≤ ((v : ℚ) : ℝ) := by exact_mod_cast sampleVar_nonneg hv
    simp only [Option.map_some', Option.some.injEq]
    rw [Real.sqrt_eq_zero hv0]
    exact Rat.cast_eq_zero

lemma sampleVar_isSome_length {l : List ℚ} {v : ℚ} (h : sampleVar l = some v) :
    2 ≤ l.length := by
  rw [sampleVar] at h
  by_cases hl : l.length ≤ 1
  · rw [if_pos hl] at h; cases h
  · exact Nat.succ_le_of_lt (Nat.lt_of_not_le hl)

/-! ### C6: the one-sample t-test -/

/-- C6: with fewer than two observations or a zero sample standard deviation,
`one_sample_tstats` reports the t-statistic, the p-value and the confidence
interval as undefined; otherwise it returns `t = mean/(s/√n)`, the two-sided
p-value `2·sf(|t|, n−1)` from the t distribution with `n − 1` degrees of
freedom, and the 95% confidence interval `mean ∓ ppf(0.975, n−1)·(s/√n)` from
the same distribution. -/
theorem one_sample_tstats_spec (sf ppf : ℝ → ℕ → ℝ) (x : List ℚ) :
    ((x.length < 2 ∨ sampleStd x = some 0) →
      (oneSampleTstats sf ppf x).t = none ∧ (oneSampleTstats sf ppf x).p = none ∧
      (oneSampleTstats sf ppf x).ci_lo = none ∧ (oneSampleTstats sf ppf x).ci_hi = none) ∧
    (∀ s : ℝ, sampleStd x = some s → s ≠ 0 →
      (oneSampleTstats sf ppf x).t
        = some ((meanQ x : ℝ) / (s / Real.sqrt (x.length : ℕ))) ∧
      (oneSampleTstats sf ppf x).p
        = some (2 * sf |(meanQ x : ℝ) / (s / Real.sqrt (x.length : ℕ))| (x.length - 1)) ∧
      (oneSampleTstats sf ppf x).ci_lo
        = some ((meanQ x : ℝ) - ppf (975 / 1000) (x.length - 1) * (s / Real.sqrt (x.length : ℕ))) ∧
      (oneSampleTstats sf ppf x).ci_hi
        = some ((meanQ x : ℝ) + ppf (975 / 1000) (x.length - 1) * (s / Real.sqrt (x.length : ℕ)))) := by
  constructor
  · intro h
    have hguard : x.length < 2 ∨ sampleVar x = some 0 := by
      rcases h with h | h
      · exact Or.inl h
      · exact Or.inr ((sampleStd_eq_zero_iff x).mp h)
    simp [oneSampleTstats, if_pos hguard]
  · intro s hs hne
    have hvar : ∃ v : ℚ, sampleVar x = some v := by
      rw [sampleStd] at hs
      cases hv : sampleVar x with
      | none => rw [hv] at hs; cases hs
      | some v => exact ⟨v, rfl⟩
    rcases hvar with ⟨v, hv⟩
    have hlen : 2 ≤ x.length := sampleVar_isSome_length hv
    have hguard : ¬(x.length < 2 ∨ sampleVar x = some 0) := by
      rintro (h | h)
      · exact absurd hlen (Nat.not_le_of_lt h)
      · apply hne
        have : sampleStd x = some 0 := (sampleStd_eq_zero_iff x).mpr h
        rw [hs] at this
        exact Option.some.inj this
    simp [oneSampleTstats, if_neg hguard, hs]

/-- C6 witness: on the constant series `[0.01, 0.01, 0.01, 0.01]` (n = 4,
standard deviation zero) both t and p are undefined, and on `[0, 1/2]`
(nonzero variance 1/8) the t-statistic is defined and equals
`mean/(√(1/8)/√2)`. -/
theorem one_sample_tstats_witness :
    (oneSampleTstats (fun _ _ => 0) (fun _ _ => 0) [1/100, 1/100, 1/100, 1/100]).t = none ∧
    (oneSampleTstats (fun _ _ => 0) (fun _ _ => 0) [1/100, 1/100, 1/100, 1/100]).p = none ∧
    (oneSampleTstats (fun _ _ => 0) (fun _ _ => 0) [0, 1/2]).t
      = some ((meanQ [0, 1/2] : ℝ)
          / (Real.sqrt (((1/8 : ℚ) : ℝ)) / Real.sqrt (([(0:ℚ), 1/2].length : ℕ) : ℝ))) := by
  have hv0 : sampleVar [(1:ℚ)/100, 1/100, 1/100, 1/100] = some 0 := by
    norm_num [sampleVar, meanQ]
  have hstd0 : sampleStd [(1:ℚ)/100, 1/100, 1/100, 1/100] = some 0 := by
    rw [sampleStd, hv0, Option.map_some']
    norm_num
  have h1 := (one_sample_tstats_spec (fun _ _ => 0) (fun _ _ => 0)
      [1/100, 1/100, 1/100, 1/100]).1 (Or.inr hstd0)
  have hv2 : sampleVar [(0:ℚ), 1/2] = some (1/8) := by
    norm_num [sampleVar, meanQ]
  have hs2 : sampleStd [(0:ℚ), 1/2] = some (Real.sqrt (((1/8 : ℚ) : ℝ))) := by
    rw [sampleStd, hv2, Option.map_some']
  have hne : Real.sqrt (((1/8 : ℚ) : ℝ)) ≠ 0 := by positivity
  have h2 := ((one_sample_tstats_spec (fun _ _ => 0) (fun _ _ => 0) [0, 1/2]).2
      (Real.sqrt (((1/8 : ℚ) : ℝ))) hs2 hne).1
  exact ⟨h1.1, h1.2.1, h2⟩

/-! ### C9: the Sharpe ratio -/

lemma annVol_nonneg {r : List ℚ} {v : ℝ} (h : annVol r = some v) : 0 ≤ v := by
  rw [annVol, sampleStd] at h
  cases hv : sampleVar r with
  | none => rw [hv] at h; cases h
  | some w =>
    rw [hv] at h
    simp only [Option.map_some', Option.some.injEq] at h
    rw [← h]
    exact mul_nonneg (Real.sqrt_nonneg _) (Real.sqrt_nonneg _)

/-- C9: the Sharpe ratio equals the arithmetic annualized return divided by
the annualized volatility, and is reported as undefined whenever the
annualized volatility is exactly zero. -/
theorem sharpe_spec (r : List ℚ) :
    ((computeDailyMetrics r).ann_vol = some 0 → (computeDailyMetrics r).sharpe = none) ∧
    (∀ (v : ℝ) (a : ℚ), (computeDailyMetrics r).ann_vol = some v →
      (computeDailyMetrics r).ann_return_arith = some a → v ≠ 0 →
      (computeDailyMetrics r).sharpe = some ((a : ℝ) / v)) := by
  by_cases hr : r.length = 0
  · simp [computeDailyMetrics, hr]
  · simp only [computeDailyMetrics, if_neg hr]
    constructor
    · intro h0
      simp [sharpeOf, h0]
    · intro v a hv ha hne
      have hpos : 0 < v := lt_of_le_of_ne (annVol_nonneg hv) (Ne.symm hne)
      have haa : annArith r = a := Option.some.inj ha
      simp [sharpeOf, hv, if_pos hpos, haa]

lemma computeDailyMetrics_ann_vol {r : List ℚ} (h : r.length ≠ 0) :
    (computeDailyMetrics r).ann_vol = annVol r := by
  simp [computeDailyMetrics, h]

lemma computeDailyMetrics_arith {r : List ℚ} (h : r.length ≠ 0) :
    (computeDailyMetrics r).ann_return_arith = some (annArith r) := by
  simp [computeDailyMetrics, h]

/-- C9 witness: the constant series `[0, 0]` has annualized volatility zero
and an undefined Sharpe ratio, while `[0.1, 0.3]` has nonzero volatility
`√(1/50)·√252` and Sharpe `(252/5)/(√(1/50)·√252)`. -/
theorem sharpe_witness :
    (computeDailyMetrics [(0:ℚ), 0]).sharpe = none ∧
    (computeDailyMetrics [(1:ℚ)/10, 3/10]).sharpe
      = some ((((252:ℚ)/5 : ℚ) : ℝ)
          / (Real.sqrt (((1/50 : ℚ) : ℝ)) * Real.sqrt 252)) := by
  have hv0 : (computeDailyMetrics [(0:ℚ), 0]).ann_vol = some 0 := by
    have h : sampleVar [(0:ℚ), 0] = some 0 := by norm_num [sampleVar, meanQ]
    rw [computeDailyMetrics_ann_vol (by simp), annVol, sampleStd, h, Option.map_some',
      Option.map_some']
    norm_num
  have h1 := (sharpe_spec [(0:ℚ), 0]).1 hv0
  have hv2 : (computeDailyMetrics [(1:ℚ)/10, 3/10]).ann_vol
      = some (Real.sqrt (((1/50 : ℚ) : ℝ)) * Real.sqrt 252) := by
    have h : sampleVar [(1:ℚ)/10, 3/10] = some (1/50) := by norm_num [sampleVar, meanQ]
    rw [computeDailyMetrics_ann_vol (by simp), annVol, sampleStd, h, Option.map_some',
      Option.map_some']
  have ha : (computeDailyMetrics [(1:ℚ)/10, 3/10]).ann_return_arith = some ((252:ℚ)/5) := by
    rw [computeDailyMetrics_arith (by simp)]
    norm_num [annArith, meanQ]
  have hne : Real.sqrt (((1/50 : ℚ) : ℝ)) * Real.sqrt 252 ≠ 0 := by positivity
  exact ⟨h1, (sharpe_spec [(1:ℚ)/10, 3/10]).2 _ _ hv2 ha hne⟩

/-! ### C10: metrics of a single-observation series -/

/-- C10: the claim asserts that for every length-1 series the max drawdown is
defined; on the series `[-1.0]` the equity hits zero, the drawdown ratio is
the float division `0.0/0.0 = NaN`, and pandas' NaN-skipping `min` of a
single NaN is NaN: the max drawdown is undefined. -/
theorem metrics_single_day_counterexample :
    ([(-1:ℚ)]).length = 1 ∧ (computeDailyMetrics [(-1:ℚ)]).max_drawdown = none := by
  constructor
  · rfl
  · norm_num [computeDailyMetrics, maxDrawdown, drawdowns, equityCurve, cumProd,
      cumMax, minSkip]

/-- C10 (amended): for a series of length exactly 1 whose single return is
not `−1`, the annualized volatility and the Sharpe ratio are undefined (the
`ddof = 1` sample standard deviation does not exist for one observation),
while `days = 1` and the arithmetic annualized return, the geometric
annualized return and the max drawdown are all defined — so undefined
volatility/Sharpe arises for some non-empty inputs, not only for the empty
series. -/
theorem metrics_single_day (x : ℚ) (hx : x ≠ -1) :
    (computeDailyMetrics [x]).ann_vol = none ∧
    (computeDailyMetrics [x]).sharpe = none ∧
    (computeDailyMetrics [x]).days = 1 ∧
    (computeDailyMetrics [x]).ann_return_arith = some (x * 252) ∧
    (computeDailyMetrics [x]).ann_return_geom = some ((1 + (x : ℝ)) ^ (252 : ℝ) - 1) ∧
    (computeDailyMetrics [x]).max_drawdown = some 0 := by
  have hlen : ([x]).length ≠ 0 := by simp
  have hvol : annVol [x] = none := by
    simp [annVol, sampleStd, sampleVar]
  refine ⟨?_, ?_, ?_, ?_, ?_, ?_⟩
  · simp [computeDailyMetrics, hvol]
  · simp [computeDailyMetrics, sharpeOf, hvol]
  · simp [computeDailyMetrics]
  · simp [computeDailyMetrics, annArith, meanQ]
  · have h1x : totalRet [x] = x := by
      simp [totalRet, equityCurve, cumProd, cumProdAux]
    simp only [computeDailyMetrics, if_neg hlen]
    rw [annGeom, if_neg (by simp), if_neg (by simp)]
    rw [h1x]
    simp
  · have hne : (1 : ℚ) + x ≠ 0 := by
      intro h; exact hx (by linarith)
    simp [computeDailyMetrics, maxDrawdown, drawdowns, equityCurve, cumProd, cumMax,
      minSkip, hne, div_self hne]

/-- C10 witness: the single-day series `[0.5]`. -/
theorem metrics_single_day_witness :
    (computeDailyMetrics [(1:ℚ)/2]).ann_vol = none ∧
    (computeDailyMetrics [(1:ℚ)/2]).sharpe = none ∧
    (computeDailyMetrics [(1:ℚ)/2]).days = 1 ∧
    (computeDailyMetrics [(1:ℚ)/2]).ann_return_arith = some ((1:ℚ)/2 * 252) ∧
    (computeDailyMetrics [(1:ℚ)/2]).ann_return_geom
      = some ((1 + ((1/2 : ℚ) : ℝ)) ^ (252 : ℝ) - 1) ∧
    (computeDailyMetrics [(1:ℚ)/2]).max_drawdown = some 0 :=
  metrics_single_day (1/2) (by norm_num)

/-! ### C7: the max drawdown -/

lemma cumMaxAux_length (m : ℚ) (l : List ℚ) : (cumMaxAux m l).length = l.length := by
  induction l generalizing m with
  | nil => simp [cumMaxAux]
  | cons x xs ih => simp [cumMaxAux, ih]

lemma cumMax_length (l : List ℚ) : (cumMax l).length = l.length := by
  cases l with
  | nil => simp [cumMax]
  | cons x xs => simp [cumMax, cumMaxAux_length]

lemma cumProdAux_pos {l : List ℚ} {m : ℚ} (hm : 0 < m) (hl : ∀ x ∈ l, 0 < x) :
    ∀ e ∈ cumProdAux m l, 0 < e := by
  induction l generalizing m with
  | nil => intro e he; cases he
  | cons x xs ih =>
    intro e he
    have hx : 0 < x := hl x (List.mem_cons_self x xs)
    rw [cumProdAux] at he
    rcases List.mem_cons.mp he with h | h
    · exact h ▸ mul_pos hm hx
    · exact ih (mul_pos hm hx) (fun y hy => hl y (List.mem_cons_of_mem x hy)) e h

lemma cumProd_pos {l : List ℚ} (hl : ∀ x ∈ l, 0 < x) : ∀ e ∈ cumProd l, 0 < e := by
  cases l with
  | nil => intro e he; cases he
  | cons x xs =>
    intro e he
    have hx : 0 < x := hl x (List.mem_cons_self x xs)
    rw [cumProd] at he
    rcases List.mem_cons.mp he with h | h
    · exact h ▸ hx
    · exact cumProdAux_pos hx (fun y hy => hl y (List.mem_cons_of_mem x hy)) e h

lemma zip_cumMaxAux_bounds {l : List ℚ} {m : ℚ} (hm : 0 < m) (hl : ∀ x ∈ l, 0 < x) :
    ∀ q ∈ l.zip (cumMaxAux m l), 0 < q.2 ∧ q.1 ≤ q.2 := by
  induction l generalizing m with
  | nil => intro q hq; cases hq
  | cons x xs ih =>
    intro q hq
    rw [cumMaxAux, List.zip_cons_cons] at hq
    rcases List.mem_cons.mp hq with h | h
    · subst h
      exact ⟨lt_max_of_lt_left hm, le_max_right m x⟩
    · exact ih (lt_max_of_lt_left hm) (fun y hy => hl y (List.mem_cons_of_mem x hy)) q h

lemma zip_cumMaxAux_chain {l : List ℚ} {m : ℚ}
    (h : ∀ q ∈ l.zip (cumMaxAux m l), q.1 = q.2) :
    List.Chain' (· ≤ ·) (m :: l) := by
  induction l generalizing m with
  | nil => simp
  | cons x xs ih =>
    rw [cumMaxAux, List.zip_cons_cons] at h
    have hx : x = max m x := h (x, max m x) (List.mem_cons_self _ _)
    have hmx : m ≤ x := by
      have := le_max_left m x
      rw [← hx] at this
      exact this
    have htail : List.Chain' (· ≤ ·) (max m x :: xs) :=
      ih (fun q hq => h q (List.mem_cons_of_mem _ hq))
    rw [← hx] at htail
    exact List.Chain'.cons hmx htail

lemma minSkip_mem : ∀ {L : List (Option ℚ)} {d : ℚ}, minSkip L = some d → some d ∈ L := by
  intro L
  induction L with
  | nil => intro d h; cases h
  | cons o xs ih =>
    intro d h
    match o with
    | none =>
      rw [minSkip] at h
      exact List.mem_cons_of_mem _ (ih h)
    | some x =>
      rw [minSkip] at h
      cases hms : minSkip xs with
      | none =>
        rw [hms] at h
        have hd : x = d := Option.some.inj h
        exact List.mem_cons.mpr (Or.inl (by rw [← hd]))
      | some y =>
        rw [hms] at h
        have hd : d = min x y := (Option.some.inj h).symm
        rcases le_total x y with hxy | hxy
        · have : d = x := by rw [hd, min_eq_left hxy]
          exact this ▸ List.mem_cons_self _ _
        · have : d = y := by rw [hd, min_eq_right hxy]
          exact List.mem_cons_of_mem _ (this ▸ ih hms)

lemma minSkip_none_not_mem : ∀ {L : List (Option ℚ)}, minSkip L = none →
    ∀ v : ℚ, some v ∉ L := by
  intro L
  induction L with
  | nil => intro _ v hv; cases hv
  | cons o xs ih =>
    intro h v hv
    match o with
    | none =>
      rw [minSkip] at h
      rcases List.mem_cons.mp hv with h' | h'
      · cases h'
      · exact ih h v h'
    | some x =>
      rw [minSkip] at h
      cases hms : minSkip xs with
      | none => rw [hms] at h; cases h
      | some y => rw [hms] at h; cases h

lemma minSkip_le : ∀ {L : List (Option ℚ)} {d : ℚ}, minSkip L = some d →
    ∀ v : ℚ, some v ∈ L → d ≤ v := by
  intro L
  induction L with
  | nil => intro d h; cases h
  | cons o xs ih =>
    intro d h v hv
    match o with
    | none =>
      rw [minSkip] at h
      rcases List.mem_cons.mp hv with h' | h'
      · cases h'
      · exact ih h v h'
    | some x =>
      rw [minSkip] at h
      cases hms : minSkip xs with
      | none =>
        rw [hms] at h
        have hd : d = x := (Option.some.inj h).symm
        rcases List.mem_cons.mp hv with h' | h'
        · have hvx : v = x := Option.some.inj h'
          rw [hd, hvx]
        · exact absurd h' (minSkip_none_not_mem hms v)
      | some y =>
        rw [hms] at h
        have hd : d = min x y := (Option.some.inj h).symm
        rcases List.mem_cons.mp hv with h' | h'
        · have hvx : v = x := Option.some.inj h'
          rw [hd, hvx]
          exact min_le_left x y
        · calc d = min x y := hd
            _ ≤ y := min_le_right x y
            _ ≤ v := ih hms v h'

lemma cumProdAux_length (m : ℚ) (l : List ℚ) : (cumProdAux m l).length = l.length := by
  induction l generalizing m with
  | nil => simp [cumProdAux]
  | cons x xs ih => simp [cumProdAux, ih]

lemma cumProd_length (l : List ℚ) : (cumProd l).length = l.length := by
  cases l with
  | nil => simp [cumProd]
  | cons x xs => simp [cumProd, cumProdAux_length]

lemma equityCurve_length (r : List ℚ) : (equityCurve r).length = r.length := by
  rw [equityCurve, cumProd_length, List.length_map]

/-- C7: the claim asserts that the max drawdown of every non-empty return
series is `≤ 0` and zero only for a monotone equity curve.  This fails when a
return below `−1` flips the equity sign: on `[-2, 1]` the equity curve is
`[-1, -2]` (strictly decreasing) yet the reported max drawdown is `0`,
because the ratio of two negative numbers inverts the ordering. -/
theorem max_drawdown_counterexample :
    (computeDailyMetrics [(-2:ℚ), 1]).max_drawdown = some 0 ∧
      ¬ List.Chain' (· ≤ ·) (equityCurve [(-2:ℚ), 1]) := by
  constructor
  · norm_num [computeDailyMetrics, maxDrawdown, drawdowns, equityCurve, cumProd,
      cumProdAux, cumMax, cumMaxAux, minSkip]
  · norm_num [equityCurve, cumProd, cumProdAux]

/-- C7 (amended): the max drawdown — the minimum over time of
`equity/running-peak − 1` — is undefined for the empty series; and for every
non-empty series whose returns all exceed `−1` (positive equity) it is
defined, `≤ 0`, and zero only if the equity curve is monotone
non-decreasing. -/
theorem max_drawdown_spec :
    (computeDailyMetrics ([] : List ℚ)).max_drawdown = none ∧
    ∀ r : List ℚ, r ≠ [] → (∀ x ∈ r, -1 < x) →
      ∃ d : ℚ, (computeDailyMetrics r).max_drawdown = some d ∧ d ≤ 0 ∧
        (d = 0 → List.Chain' (· ≤ ·) (equityCurve r)) := by
  constructor
  · simp [computeDailyMetrics]
  · intro r hr hpos
    have hlen : r.length ≠ 0 := fun h => hr (List.length_eq_zero.mp h)
    have hdd : (computeDailyMetrics r).max_drawdown = maxDrawdown r := by
      simp [computeDailyMetrics, hlen]
    have hEpos : ∀ e ∈ equityCurve r, 0 < e := by
      apply cumProd_pos
      intro y hy
      rcases List.mem_map.mp hy with ⟨x, hx, hxy⟩
      have := hpos x hx
      rw [← hxy]
      linarith
    have hElen : (equityCurve r).length = r.length := equityCurve_length r
    cases hE : equityCurve r with
    | nil =>
      exfalso
      rw [hE] at hElen
      exact hlen hElen.symm
    | cons e es =>
      have hepos : 0 < e := hEpos e (hE ▸ List.mem_cons_self e es)
      have hespos : ∀ y ∈ es, 0 < y := fun y hy =>
        hEpos y (hE ▸ List.mem_cons_of_mem e hy)
      have hbounds : ∀ q ∈ (equityCurve r).zip (cumMax (equityCurve r)),
          0 < q.2 ∧ q.1 ≤ q.2 := by
        rw [hE, cumMax, List.zip_cons_cons]
        intro q hq
        rcases List.mem_cons.mp hq with h | h
        · subst h; exact ⟨hepos, le_refl e⟩
        · exact zip_cumMaxAux_bounds hepos hespos q h
      have hall : ∀ o ∈ drawdowns r, ∃ v, o = some v ∧ v ≤ 0 := by
        intro o ho
        rw [drawdowns] at ho
        rcases List.mem_map.mp ho with ⟨q, hq, hqo⟩
        obtain ⟨hq2, hq12⟩ := hbounds q hq
        refine ⟨q.1 / q.2 - 1, ?_, ?_⟩
        · rw [← hqo, if_neg (ne_of_gt hq2)]
        · have : q.1 / q.2 ≤ 1 := (div_le_one hq2).mpr hq12
          linarith
      have hddne : drawdowns r ≠ [] := by
        intro h
        have : (drawdowns r).length = 0 := by rw [h]; rfl
        rw [drawdowns, List.length_map, List.length_zip, cumMax_length, hElen,
          Nat.min_self] at this
        exact hlen this
      cases hms : minSkip (drawdowns r) with
      | none =>
        exfalso
        cases hD : drawdowns r with
        | nil => exact hddne hD
        | cons o os =>
          rcases hall o (hD ▸ List.mem_cons_self o os) with ⟨v, hov, _⟩
          exact minSkip_none_not_mem hms v (hD ▸ (hov ▸ List.mem_cons_self o os))
      | some d =>
        refine ⟨d, by rw [hdd, maxDrawdown, hms], ?_, ?_⟩
        · rcases hall _ (minSkip_mem hms) with ⟨v, hov, hv0⟩
          exact (Option.some.inj hov) ▸ hv0
        · intro hd0
          have hallzero : ∀ q ∈ (equityCurve r).zip (cumMax (equityCurve r)),
              q.1 = q.2 := by
            intro q hq
            obtain ⟨hq2, hq12⟩ := hbounds q hq
            have homem : some (q.1 / q.2 - 1) ∈ drawdowns r := by
              rw [drawdowns]
              exact List.mem_map.mpr ⟨q, hq, by rw [if_neg (ne_of_gt hq2)]⟩
            have hge : d ≤ q.1 / q.2 - 1 := minSkip_le hms _ homem
            have hle : q.1 / q.2 - 1 ≤ 0 := by
              have : q.1 / q.2 ≤ 1 := (div_le_one hq2).mpr hq12
              linarith
            have hz : q.1 / q.2 = 1 := by
              rw [hd0] at hge
              linarith
            have := (div_eq_iff (ne_of_gt hq2)).mp hz
            rw [one_mul] at this
            exact this
          rw [hE, cumMax, List.zip_cons_cons] at hallzero
          exact zip_cumMaxAux_chain
            (fun q hq => hallzero q (List.mem_cons_of_mem _ hq))

/-- C7 witness: the two-day series `[0.5, -0.25]` has equity `[1.5, 1.125]`
and a defined, non-positive max drawdown. -/
theorem max_drawdown_witness :
    ∃ d : ℚ, (computeDailyMetrics [(1:ℚ)/2, -1/4]).max_drawdown = some d ∧ d ≤ 0 ∧
      (d = 0 → List.Chain' (· ≤ ·) (equityCurve [(1:ℚ)/2, -1/4])) := by
  apply max_drawdown_spec.2 [(1:ℚ)/2, -1/4] (by simp)
  intro x hx
  rcases List.mem_cons.mp hx with h | h
  · rw [h]; norm_num
  · rcases List.mem_cons.mp h with h' | h'
    · rw [h']; norm_num
    · cases h'

/-! ### C4: the per-day net return and zero-candidate handling -/

lemma sectorPicks_eq_nil {g : List Candidate} (h : ∀ c ∈ g, c.sector ∉ ALL_SECTORS) :
    sectorPicks g = [] := by
  rw [sectorPicks, List.flatten_eq_nil_iff]
  intro l hl
  rcases List.mem_map.mp hl with ⟨s, hs, hsl⟩
  have hfil : g.filter (fun c => c.sector = s) = [] := by
    rw [List.filter_eq_nil_iff]
    intro c hc
    simp only [decide_eq_true_eq]
    intro hcs
    exact h c hc (hcs ▸ hs)
  rw [← hsl, hfil]
  rfl

/-- C4: when at least one candidate is selected, the day's net portfolio
return is the mean of the selected candidates' forward returns minus
`cost_bps/10000`, with the cost charged once for the day regardless of the
number of positions; a day with no eligible candidate (no candidate in any
listed sector) yields a portfolio return of exactly `0` and one zero-return,
empty-ticker pick record per sector. -/
theorem process_day_spec (g : List Candidate) :
    (sectorPicks g ≠ [] →
      (processDay g).1 = meanQ ((sectorPicks g).map Candidate.fwd_ret) - COST) ∧
    ((∀ c ∈ g, c.sector ∉ ALL_SECTORS) →
      (processDay g).1 = 0 ∧
      (processDay g).2 = ALL_SECTORS.map (fun s => (⟨"", s, 0⟩ : Pick))) := by
  constructor
  · intro h
    simp only [processDay, if_neg h]
  · intro h
    have hnil := sectorPicks_eq_nil h
    simp [processDay, hnil]

/-- C4 witness: a day with one candidate in Energy and one in Technology
(two selected positions, the cost charged once on their mean), and a day
whose only candidate sits in the synthetic Benchmark sector, which is not in
the sector enumeration. -/
theorem process_day_witness :
    sectorPicks [⟨"XOM", "Energy", 3/5, -1/100⟩,
        ⟨"AAPL", "Technology", 9/10, 1/50⟩] ≠ [] ∧
    (processDay [⟨"XOM", "Energy", 3/5, -1/100⟩, ⟨"AAPL", "Technology", 9/10, 1/50⟩]).1
      = meanQ ((sectorPicks [⟨"XOM", "Energy", 3/5, -1/100⟩,
          ⟨"AAPL", "Technology", 9/10, 1/50⟩]).map Candidate.fwd_ret) - COST ∧
    (processDay [⟨"SPY", "Benchmark", 1/2, 0⟩]).1 = 0 ∧
    (processDay [⟨"SPY", "Benchmark", 1/2, 0⟩]).2
      = ALL_SECTORS.map (fun s => (⟨"", s, 0⟩ : Pick)) := by
  have hne : sectorPicks [⟨"XOM", "Energy", 3/5, -1/100⟩,
      ⟨"AAPL", "Technology", 9/10, 1/50⟩] ≠ [] := by decide
  have hB : ∀ c ∈ [(⟨"SPY", "Benchmark", 1/2, 0⟩ : Candidate)],
      c.sector ∉ ALL_SECTORS := by
    intro c hc
    rw [List.mem_singleton] at hc
    subst hc
    simp [ALL_SECTORS]
  refine ⟨hne, (process_day_spec _).1 hne, ?_, ?_⟩
  · exact ((process_day_spec _).2 hB).1
  · exact ((process_day_spec _).2 hB).2

/-! ### C5: the dense (date × sector) grid -/

lemma secDaily_keys (rows : List PickRow) :
    (secDaily rows).map Prod.fst = groupKeys rows := by
  rw [secDaily, List.map_map]
  exact List.map_id _

lemma secDaily_keys_nodup (rows : List PickRow) :
    ((secDaily rows).map Prod.fst).Nodup := by
  rw [secDaily_keys]
  exact List.nodup_dedup _

lemma filter_len_le_one {L : List ((ℕ × String) × ℚ)}
    (h : (L.map Prod.fst).Nodup) (k : ℕ × String) :
    (L.filter (fun kv => kv.1 = k)).length ≤ 1 := by
  induction L with
  | nil => simp
  | cons kv rest ih =>
    rw [List.map_cons, List.nodup_cons] at h
    obtain ⟨hk, hrest⟩ := h
    rw [List.filter_cons]
    by_cases hkv : kv.1 = k
    · rw [if_pos (by simp [hkv])]
      have hnil : rest.filter (fun kv' => kv'.1 = k) = [] := by
        rw [List.filter_eq_nil_iff]
        intro kv' hkv'
        simp only [decide_eq_true_eq]
        intro he
        apply hk
        rw [hkv, ← he]
        exact List.mem_map.mpr ⟨kv', hkv', rfl⟩
      rw [hnil]
      simp
    · rw [if_neg (by simp [hkv])]
      exact ih hrest

lemma joinRow_eq_singleton (right : List ((ℕ × String) × ℚ))
    (hnd : (right.map Prod.fst).Nodup) (k : ℕ × String) :
    ∃ v : ℚ, joinRow right k = [(k, v)] := by
  rw [joinRow]
  by_cases hms : right.filter (fun kv => kv.1 = k) = []
  · exact ⟨0, by rw [if_pos hms]⟩
  · have hlen : (right.filter (fun kv => kv.1 = k)).length = 1 := by
      have hle := filter_len_le_one hnd k
      have hpos : 0 < (right.filter (fun kv => kv.1 = k)).length :=
        List.length_pos.mpr hms
      omega
    rcases List.length_eq_one.mp hlen with ⟨a, ha⟩
    refine ⟨a.2, ?_⟩
    rw [if_neg hms, ha]
    rfl

lemma leftJoinFill_map_fst (left : List (ℕ × String))
    (right : List ((ℕ × String) × ℚ)) (hnd : (right.map Prod.fst).Nodup) :
    (leftJoinFill left right).map Prod.fst = left := by
  induction left with
  | nil => rfl
  | cons k ks ih =>
    rw [leftJoinFill, List.flatMap_cons, List.map_append]
    rcases joinRow_eq_singleton right hnd k with ⟨v, hv⟩
    rw [hv]
    have htail : (ks.flatMap (joinRow right)).map Prod.fst = ks := ih
    rw [htail]
    rfl

lemma leftJoinFill_length (left : List (ℕ × String))
    (right : List ((ℕ × String) × ℚ)) (hnd : (right.map Prod.fst).Nodup) :
    (leftJoinFill left right).length = left.length := by
  have h := congrArg List.length (leftJoinFill_map_fst left right hnd)
  simpa using h

lemma leftJoinFill_zero_of_missing (left : List (ℕ × String))
    (right : List ((ℕ × String) × ℚ)) (k : ℕ × String) (hk : k ∈ left)
    (hmiss : ∀ kv ∈ right, kv.1 ≠ k) : (k, (0:ℚ)) ∈ leftJoinFill left right := by
  rw [leftJoinFill]
  apply List.mem_flatMap.mpr
  refine ⟨k, hk, ?_⟩
  have hnil : right.filter (fun kv => kv.1 = k) = [] := by
    rw [List.filter_eq_nil_iff]
    intro kv hkv
    simp only [decide_eq_true_eq]
    exact hmiss kv hkv
  rw [joinRow, if_pos hnil]
  exact List.mem_singleton.mpr rfl

/-- C5: for every calendar and every collection of pick records, however
sparse, the dense sector grid has exactly one row for every (business-day,
sector) pair of the cross product — row count `|calendar| × |sector_list|`,
key column equal to the cross product — and every combination with no pick
record carries return `0.0` (no null returns: every row holds a rational). -/
theorem sector_grid_spec (cal : List ℕ) (rows : List PickRow) :
    (sectorGrid cal rows).length = cal.length * ALL_SECTORS.length ∧
    (sectorGrid cal rows).map Prod.fst = gridKeys cal ∧
    ∀ k ∈ gridKeys cal, (∀ pr ∈ rows, (pr.date, pr.sector) ≠ k) →
      (k, (0:ℚ)) ∈ sectorGrid cal rows := by
  have hnd := secDaily_keys_nodup rows
  refine ⟨?_, ?_, ?_⟩
  · rw [sectorGrid, leftJoinFill_length _ _ hnd, gridKeys, List.length_product]
  · rw [sectorGrid]
    exact leftJoinFill_map_fst _ _ hnd
  · intro k hk hmiss
    rw [sectorGrid]
    apply leftJoinFill_zero_of_missing _ _ k hk
    intro kv hkv
    have hmem : kv.1 ∈ groupKeys rows := by
      have h1 : kv.1 ∈ (secDaily rows).map Prod.fst :=
        List.mem_map.mpr ⟨kv, hkv, rfl⟩
      rw [secDaily_keys] at h1
      exact h1
    rw [groupKeys, List.mem_dedup] at hmem
    rcases List.mem_map.mp hmem with ⟨pr, hpr, hpreq⟩
    intro hkvk
    exact hmiss pr hpr (by rw [hpreq, hkvk])

/-- C5 witness: a two-day calendar with a single Energy pick on the first
day; the grid has `2 × 11` rows and the untouched (day 2, Technology) cell
carries return `0`. -/
theorem sector_grid_witness :
    (sectorGrid [100, 101] [⟨100, "Energy", 1/100⟩]).length
      = [100, 101].length * ALL_SECTORS.length ∧
    ((101, "Technology"), (0:ℚ)) ∈ sectorGrid [100, 101] [⟨100, "Energy", 1/100⟩] := by
  have h := sector_grid_spec [100, 101] [⟨(100:ℕ), "Energy", 1/100⟩]
  refine ⟨h.1, h.2.2 (101, "Technology") ?_ ?_⟩
  · rw [gridKeys, List.mem_product]
    exact ⟨by simp, by simp [ALL_SECTORS]⟩
  · intro pr hpr
    rw [List.mem_singleton] at hpr
    subst hpr
    simp

/-! ### C8: ranking the sector statistics table by Sharpe ratio -/

lemma sharpeDescLe_total (a b : Option ℚ) : sharpeDescLe a b ∨ sharpeDescLe b a := by
  match a, b with
  | some x, some y =>
    rcases le_total y x with h | h
    · exact Or.inl h
    · exact Or.inr h
  | some _, none => exact Or.inl trivial
  | none, some _ => exact Or.inr trivial
  | none, none => exact Or.inl trivial

lemma sharpeDescLe_trans {a b c : Option ℚ} (hab : sharpeDescLe a b)
    (hbc : sharpeDescLe b c) : sharpeDescLe a c := by
  match a, b, c with
  | some x, some y, some z =>
    exact le_trans hbc hab
  | some _, some _, none => exact trivial
  | some _, none, some _ => exact absurd hbc (by intro h; exact h)
  | some _, none, none => exact trivial
  | none, some _, _ => exact absurd hab (by intro h; exact h)
  | none, none, some _ => exact absurd hbc (by intro h; exact h)
  | none, none, none => exact trivial

/-- C8: the claim states that NaN Sharpe values are replaced by `0.0` before
the table is ranked, so an undefined-Sharpe sector would sort above sectors
with negative Sharpe.  The code ranks first (pandas places NaN last under
`ascending=False`) and applies `fillna(0.0)` afterwards: with rows
`[(A, −1), (B, NaN)]` the code produces `[(A, −1), (B, 0)]` — the undefined
sector sorts below the negative one — while the claimed fill-then-rank
pipeline would produce `[(B, 0), (A, −1)]`. -/
theorem rank_sectors_counterexample :
    rankSectors [("A", some (-1)), ("B", none)] = [("A", -1), ("B", 0)] ∧
    rankSectorsSpec [("A", some (-1)), ("B", none)] = [("B", 0), ("A", -1)] ∧
    rankSectors [("A", some (-1)), ("B", none)]
      ≠ rankSectorsSpec [("A", some (-1)), ("B", none)] := by
  have h1 : rankSectors [("A", some (-1)), ("B", none)] = [("A", -1), ("B", 0)] := by
    norm_num [rankSectors, sortRowsBySharpe, sharpeDescLe, List.insertionSort,
      List.orderedInsert]
  have h2 : rankSectorsSpec [("A", some (-1)), ("B", none)] = [("B", 0), ("A", -1)] := by
    norm_num [rankSectorsSpec, List.insertionSort, List.orderedInsert]
  exact ⟨h1, h2, by rw [h1, h2]; simp⟩

/-- C8 (amended): the code sorts the sector table by Sharpe ratio descending
with undefined (NaN) Sharpe values placed last — after every sector with a
defined Sharpe, in particular below negative ones — and only then replaces
the undefined values by `0.0` for output. -/
theorem rank_sectors_spec (rows : List (String × Option ℚ)) :
    (sortRowsBySharpe rows).Perm rows ∧
    List.Pairwise
      (fun a b : String × Option ℚ =>
        (∀ x y, a.2 = some x → b.2 = some y → y ≤ x) ∧ (a.2 = none → b.2 = none))
      (sortRowsBySharpe rows) ∧
    rankSectors rows = (sortRowsBySharpe rows).map (fun r => (r.1, r.2.getD 0)) := by
  refine ⟨List.perm_insertionSort _ _, ?_, rfl⟩
  haveI htot : IsTotal (String × Option ℚ) (fun a b => sharpeDescLe a.2 b.2) :=
    ⟨fun a b => sharpeDescLe_total a.2 b.2⟩
  haveI htrans : IsTrans (String × Option ℚ) (fun a b => sharpeDescLe a.2 b.2) :=
    ⟨fun _ _ _ hab hbc => sharpeDescLe_trans hab hbc⟩
  have hsorted : List.Sorted (fun a b : String × Option ℚ => sharpeDescLe a.2 b.2)
      (sortRowsBySharpe rows) := List.sorted_insertionSort _ rows
  refine hsorted.imp ?_
  intro a b hab
  constructor
  · intro x y hx hy
    rw [hx, hy] at hab
    exact hab
  · intro ha
    rw [ha] at hab
    match hb : b.2 with
    | none => rfl
    | some y => rw [hb] at hab; exact absurd hab (by intro h; exact h)

end NewsAlpha
